import Mathlib

/-!
Verification of the schema-driven template/XML mapping engine of the
kobo-upload-app repository (`src/data_utils.py`, with call sites in
`src/app.py` and `src/kobo_api.py`).

Python strings are modelled as `List Char` (`Str`), so that the string
primitives the source relies on (`strip`, `startswith`, `split`,
`replace`, f-string joins) are plain structural recursions amenable to
induction.  Pandas cells are modelled three-valued: a column may be
absent from a row, present but NA (pandas `NaN`), or present with a
string value; `str()` applied to an NA cell yields the literal string
"nan", exactly as in pandas with `dtype=str` frames.
-/

/-- Python strings, modelled as lists of characters. -/
abbrev Str := List Char

/-- Whitespace test used by Python's `str.strip()` / `str.split()`. -/
def pyws (c : Char) : Bool := c.isWhitespace

/-- Python `str.lstrip()`. -/
def lstrip (s : Str) : Str := s.dropWhile pyws

/-- Python `str.rstrip()`. -/
def rstrip (s : Str) : Str := (s.reverse.dropWhile pyws).reverse

/-- Python `str.strip()`: drop leading and trailing whitespace. -/
def strip (s : Str) : Str := rstrip (lstrip s)

/-- The `"uuid:"` prefix used throughout `data_utils.py`. -/
def uuidPfx : Str := "uuid:".data

/-- `data_utils.ensure_uuid_prefix`: `if not x: return x`, else strip and
prepend `"uuid:"` unless the stripped value already starts with it. -/
def ensure_uuid_prefix (x : Str) : Str :=
  if x = [] then x
  else
    let s := strip x
    if uuidPfx.isPrefixOf s then s else uuidPfx ++ s

-- ---------------------------------------------------------------------
-- Generic facts about the string primitives
-- ---------------------------------------------------------------------

theorem dropWhile_idem (p : Char → Bool) (l : Str) :
    (l.dropWhile p).dropWhile p = l.dropWhile p := by
  induction l with
  | nil => rfl
  | cons c cs ih =>
    by_cases h : p c
    · simp [List.dropWhile_cons, h, ih]
    · simp [List.dropWhile_cons, h]

theorem dropWhile_append_eq_nil {p : Char → Bool} {l₁ l₂ : Str}
    (h : l₁.dropWhile p = []) :
    (l₁ ++ l₂).dropWhile p = l₂.dropWhile p := by
  induction l₁ with
  | nil => rfl
  | cons c cs ih =>
    by_cases hc : p c
    · have h' : cs.dropWhile p = [] := by simpa [List.dropWhile_cons, hc] using h
      simp [List.dropWhile_cons, hc, ih h']
    · simp [List.dropWhile_cons, hc] at h

theorem dropWhile_append_of_ne_nil {p : Char → Bool} {l₁ l₂ : Str}
    (h : l₁.dropWhile p ≠ []) :
    (l₁ ++ l₂).dropWhile p = l₁.dropWhile p ++ l₂ := by
  induction l₁ with
  | nil => simp at h
  | cons c cs ih =>
    by_cases hc : p c
    · have h' : cs.dropWhile p ≠ [] := by simpa [List.dropWhile_cons, hc] using h
      simp [List.dropWhile_cons, hc, ih h']
    · simp [List.dropWhile_cons, hc]

theorem lstrip_idem (s : Str) : lstrip (lstrip s) = lstrip s :=
  dropWhile_idem _ _

theorem rstrip_idem (s : Str) : rstrip (rstrip s) = rstrip s := by
  unfold rstrip
  rw [List.reverse_reverse, dropWhile_idem]

theorem rstrip_pre (s : Str) : rstrip s <+: s := by
  have h : s.reverse.dropWhile pyws <:+ s.reverse := List.dropWhile_suffix _
  have h2 : (rstrip s).reverse <:+ s.reverse := by simpa [rstrip] using h
  exact List.reverse_suffix.mp h2

theorem lstrip_head_not_ws (s : Str) :
    lstrip s = [] ∨ ∃ c cs, lstrip s = c :: cs ∧ pyws c = false := by
  induction s with
  | nil => exact Or.inl rfl
  | cons c cs ih =>
    by_cases h : pyws c
    · simpa [lstrip, List.dropWhile_cons, h] using ih
    · exact Or.inr ⟨c, cs, by simp [lstrip, List.dropWhile_cons, h], by simpa using h⟩

theorem lstrip_of_head_not_ws {c : Char} {cs : Str} (h : pyws c = false) :
    lstrip (c :: cs) = c :: cs := by
  simp [lstrip, List.dropWhile_cons, h]

theorem rstrip_ne_nil_of_head {c : Char} {cs : Str} (h : pyws c = false) :
    rstrip (c :: cs) ≠ [] := by
  intro hnil
  have hrev : (c :: cs).reverse.dropWhile pyws = [] := by
    have := congrArg List.reverse hnil
    simpa [rstrip] using this
  have hall := List.dropWhile_eq_nil_iff.mp hrev
  have hc : pyws c = true := hall c (by simp)
  simp [h] at hc

theorem lstrip_rstrip (s : Str) :
    lstrip (rstrip (lstrip s)) = rstrip (lstrip s) := by
  rcases lstrip_head_not_ws s with h | ⟨c, cs, h, hc⟩
  · rw [h]; rfl
  · rw [h]
    rcases hp : rstrip (c :: cs) with _ | ⟨d, ds⟩
    · rfl
    · have hpre : rstrip (c :: cs) <+: c :: cs := rstrip_pre _
      rw [hp] at hpre
      obtain ⟨u, hu⟩ := hpre
      have hu' : d :: (ds ++ u) = c :: cs := by simpa using hu
      have hd : d = c := by injection hu'
      subst hd
      exact lstrip_of_head_not_ws hc

theorem strip_idem (s : Str) : strip (strip s) = strip s := by
  unfold strip
  rw [lstrip_rstrip, rstrip_idem]

theorem strip_rstrip_self (s : Str) : rstrip (strip s) = strip s := by
  unfold strip; rw [rstrip_idem]

theorem rstrip_append_of_ne_nil {a b : Str} (h : rstrip b ≠ []) :
    rstrip (a ++ b) = a ++ rstrip b := by
  have h' : b.reverse.dropWhile pyws ≠ [] := by
    intro hn
    apply h
    simp [rstrip, hn]
  unfold rstrip
  rw [List.reverse_append, dropWhile_append_of_ne_nil h', List.reverse_append,
    List.reverse_reverse]

theorem lstrip_uuid_append (t : Str) :
    lstrip (uuidPfx ++ t) = uuidPfx ++ t := by
  have hw : pyws 'u' = false := by decide
  simpa [uuidPfx] using @lstrip_of_head_not_ws 'u' ("uid:".data ++ t) hw

theorem strip_uuid_append (t : Str) :
    strip (uuidPfx ++ t) = uuidPfx ++ rstrip t := by
  have h1 : strip (uuidPfx ++ t) = rstrip (uuidPfx ++ t) := by
    unfold strip
    rw [lstrip_uuid_append]
  rw [h1]
  by_cases h : rstrip t = []
  · have htrev : t.reverse.dropWhile pyws = [] := by
      have := congrArg List.reverse h
      simpa [rstrip] using this
    rw [h, List.append_nil]
    unfold rstrip
    rw [List.reverse_append, dropWhile_append_eq_nil htrev]
    decide
  · rw [rstrip_append_of_ne_nil h]

-- ---------------------------------------------------------------------
-- C1: behaviour of ensure_uuid_prefix
-- ---------------------------------------------------------------------

theorem uuid_isPrefixOf_append (s : Str) :
    uuidPfx.isPrefixOf (uuidPfx ++ s) = true := by
  rw [List.isPrefixOf_iff_prefix]
  exact List.prefix_append _ _

theorem prefixed_ne_nil (s : Str) (h : uuidPfx.isPrefixOf s = true) : s ≠ [] := by
  intro hn
  subst hn
  simp [uuidPfx] at h

theorem eup_nil : ensure_uuid_prefix [] = [] := rfl

theorem eup_eq_of_ne (x : Str) (hx : x ≠ []) :
    ensure_uuid_prefix x =
      if uuidPfx.isPrefixOf (strip x) = true then strip x else uuidPfx ++ strip x := by
  unfold ensure_uuid_prefix
  simp [hx]

/-- C1 (amended): `ensure_uuid_prefix` is idempotent on every token, and
`ensure_uuid_prefix ("uuid:" ++ t) = ensure_uuid_prefix t` holds for every
nonempty token `t` that has no leading whitespace and does not itself start
with `"uuid:"`. -/
theorem claim_C1 :
    (∀ t : Str, ensure_uuid_prefix ( ensure_uuid_prefix t) = ensure_uuid_prefix t) ∧
    (∀ t : Str, t ≠ [] → lstrip t = t → uuidPfx.isPrefixOf t = false →
      ensure_uuid_prefix (uuidPfx ++ t) = ensure_uuid_prefix t) := by
  constructor
  · intro t
    by_cases ht : t = []
    · subst ht
      rfl
    · rw [eup_eq_of_ne t ht]
      by_cases hs : uuidPfx.isPrefixOf (strip t) = true
      · rw [if_pos hs]
        have hne : strip t ≠ [] := prefixed_ne_nil _ hs
        rw [eup_eq_of_ne _ hne, strip_idem, if_pos hs]
      · rw [if_neg hs]
        have hne : uuidPfx ++ strip t ≠ [] := by simp [uuidPfx]
        rw [eup_eq_of_ne _ hne, strip_uuid_append, strip_rstrip_self,
          if_pos (uuid_isPrefixOf_append _)]
  · intro t ht hl hp
    have hstript : strip t = rstrip t := by
      unfold strip; rw [hl]
    have hrne : rstrip t ≠ [] := by
      rcases t with _ | ⟨c, cs⟩
      · exact absurd rfl ht
      · have hc : pyws c = false := by
          rcases lstrip_head_not_ws (c :: cs) with h | ⟨d, ds, hd, hws⟩
          · rw [hl] at h
            exact absurd h (by simp)
          · rw [hl] at hd
            have hdc : d = c := by injection hd.symm
            exact hdc ▸ hws
        exact rstrip_ne_nil_of_head hc
    have hnp : uuidPfx.isPrefixOf (rstrip t) = false := by
      cases hb : uuidPfx.isPrefixOf (rstrip t) with
      | false => rfl
      | true =>
        exfalso
        have hpre : uuidPfx <+: rstrip t := List.isPrefixOf_iff_prefix.mp hb
        have hpt : uuidPfx <+: t := hpre.trans (rstrip_pre t)
        rw [← List.isPrefixOf_iff_prefix] at hpt
        simp [hpt] at hp
    have hne : uuidPfx ++ t ≠ [] := by simp [uuidPfx]
    have hstripu : strip (uuidPfx ++ t) = uuidPfx ++ rstrip t := by
      unfold strip
      rw [lstrip_uuid_append, rstrip_append_of_ne_nil hrne]
    rw [eup_eq_of_ne _ hne, hstripu, if_pos (uuid_isPrefixOf_append _),
      eup_eq_of_ne t ht, hstript, if_neg (by simp [hnp])]

/-- C1 witness: the amended law applied at the concrete token `"abc"`. -/
theorem claim_C1_witness :
    ensure_uuid_prefix (uuidPfx ++ "abc".data) = ensure_uuid_prefix ("abc".data) :=
  claim_C1.2 ("abc".data) (by decide) (by decide) (by decide)

/-- C1 counterexample: the claim as stated quantifies over all tokens with
no restriction, but at the empty token `normalize("uuid:" ++ "") = "uuid:"`
while `normalize("") = ""`. -/
theorem claim_C1_counterexample :
    ¬ ( ensure_uuid_prefix (uuidPfx ++ ([] : Str)) = ensure_uuid_prefix ([] : Str)) := by
  decide

-- ---------------------------------------------------------------------
-- Rows and cells (pandas model)
-- ---------------------------------------------------------------------

/-- A pandas cell: `none` is NA (`NaN`), `some s` a string value. -/
abbrev Cell := Option Str

/-- A pandas row (`pd.Series`): `none` means the column is absent from the
row's index, `some cell` that it is present (possibly NA). -/
abbrev Row := Str → Option Cell

/-- Python `str()` applied to a cell value: `str(nan) = "nan"`. -/
def pyStr : Cell → Str
  | none => "nan".data
  | some s => s

/-- `row.get(col, default)` followed by `str(...)`, as used by the
geopoint branch of `row_to_xml`: an absent column yields the (string)
default, a present NA cell yields `"nan"`. -/
def getStr (row : Row) (col : Str) (dflt : Str) : Str :=
  match row col with
  | none => dflt
  | some cell => pyStr cell

-- ---------------------------------------------------------------------
-- Survey schema model
-- ---------------------------------------------------------------------

/-- A survey question node (the fields of the JSON dict that
`data_utils.py` reads; `choice_list` models the `_choice_list` key that
`flatten_survey` adds to copies of select_multiple nodes). -/
structure QNode where
  type : Option Str
  name : Option Str
  select_from_list_name : Option Str
  choice_list : Option Str
deriving DecidableEq

/-- A choice-list record (only `list_name` and `children` are read). -/
structure Choice where
  list_name : Option Str
  children : List QNode

/-- The `content` sub-dict of an asset. -/
structure Content where
  survey : Option (List QNode)
  choices : Option (List Choice)

/-- An asset as consumed by `build_template_df`. -/
structure Asset where
  content : Option Content

/-- `"/".join` of path segments. -/
def joinSlash : List Str → Str
  | [] => []
  | [x] => x
  | x :: y :: t => x ++ '/' :: joinSlash (y :: t)

/-- The four group marker type tags of `flatten_survey`. -/
def groupMarkers : List Str :=
  ["begin_group".data, "end_group".data, "begin_repeat".data, "end_repeat".data]

/-- The loop body of `data_utils.flatten_survey`, with the group-name
stack made explicit. -/
def flattenAux : List Str → List QNode → List (Str × QNode)
  | _, [] => []
  | stack, q :: rest =>
    let qtype := q.type.getD []
    if qtype ∈ groupMarkers then
      if "begin".data.isPrefixOf qtype then
        flattenAux (stack ++ [q.name.getD ("group".data)]) rest
      else if stack ≠ [] then
        flattenAux stack.dropLast rest
      else
        flattenAux stack rest
    else
      match q.name with
      | none => flattenAux stack rest
      | some n =>
        if n = [] ∨ "_".data.isPrefixOf n then
          flattenAux stack rest
        else
          let path := joinSlash (stack ++ [n])
          if qtype = "geopoint".data then
            (path ++ "_latitude".data, q) :: (path ++ "_longitude".data, q) ::
              (path ++ "_altitude".data, q) :: (path ++ "_precision".data, q) ::
              flattenAux stack rest
          else if qtype = "select_multiple".data then
            (path, { q with choice_list := q.select_from_list_name }) ::
              flattenAux stack rest
          else
            (path, q) :: flattenAux stack rest

/-- `data_utils.flatten_survey`.  The source also builds a `choice_map`
from `choices` which it never reads; it is reproduced here and likewise
unused. -/
def flatten_survey (survey : List QNode) (choices : List Choice) :
    List (Str × QNode) :=
  let _choice_map := choices.filterMap (fun c => c.list_name.map (fun n => (n, c.children)))
  flattenAux [] survey

/-- The three reserved system columns of `build_template_df`. -/
def sysCols : List Str := ["meta/instanceID".data, "_uuid".data, "_id".data]

/-- `data_utils.build_template_df`: returns the template's column list and
the schema map.  The schema map is kept as the association list produced
by `flatten_survey` (the source's dict comprehension; paths produced by a
well-formed survey are unique). -/
def build_template_df (asset : Asset) : List Str × List (Str × QNode) :=
  let content := asset.content.getD ⟨none, none⟩
  let survey := content.survey.getD []
  let choices := content.choices.getD []
  let flattened := flatten_survey survey choices
  let headers := flattened.map Prod.fst
  let template := sysCols.foldl (fun cols c => if c ∈ cols then cols else cols ++ [c]) headers
  (template, flattened)

-- ---------------------------------------------------------------------
-- ID resolution (get_submission_id, build_existing_id_set)
-- ---------------------------------------------------------------------

/-- One row of the known-records table built by `fetch_submission_map`
(`_id`, `_uuid`, `meta/instanceID` columns; each cell possibly NA). -/
structure IdRec where
  idv : Option Str
  uuidv : Option Str
  instv : Option Str
deriving DecidableEq

/-- `data_utils.get_submission_id`: `pd.notna(row.get(col))` is modelled
by the pattern `some (some v)` (column present with a non-NA value); a
pandas `==` comparison against an NA cell is `False`, which the filter's
`r.idv = some v` reproduces. -/
def get_submission_id (row : Row) (id_map_df : Option (List IdRec)) : Option Str :=
  match row ("meta/instanceID".data) with
  | some (some v) => some ( ensure_uuid_prefix (strip v))
  | _ =>
    match row ("_uuid".data) with
    | some (some v) => some ( ensure_uuid_prefix (strip v))
    | _ =>
      match row ("_id".data), id_map_df with
      | some (some v), some recs =>
        if recs ≠ [] then
          match recs.filter (fun r => r.idv = some v) with
          | [r] => some ( ensure_uuid_prefix (pyStr r.instv))
          | _ => none
        else none
      | _, _ => none

/-- Python `s.replace("uuid:", "")` (removes every occurrence), written
with an explicit fuel equal to the length of the string so that the
recursion is structural. -/
def removeUuidAux : Nat → Str → Str
  | _, [] => []
  | 0, s => s
  | n + 1, c :: cs =>
    if uuidPfx.isPrefixOf (c :: cs) then removeUuidAux n ((c :: cs).drop 5)
    else c :: removeUuidAux n cs

/-- Python `s.replace("uuid:", "")`. -/
def removeUuid (s : Str) : Str := removeUuidAux s.length s

/-- Loop body of `build_existing_id_set` (skips NA, then adds the
prefix-normalized form and the form with every `"uuid:"` removed). -/
def existStep (ids : List Str) (r : IdRec) : List Str :=
  match r.instv with
  | none => ids
  | some v => ids ++ [ ensure_uuid_prefix (strip v), removeUuid (strip v)]

/-- `data_utils.build_existing_id_set`; the Python `set` is modelled as a
list with membership as the only observation. -/
def build_existing_id_set (id_map_df : Option (List IdRec)) : List Str :=
  match id_map_df with
  | none => []
  | some recs => if recs = [] then [] else recs.foldl existStep []

-- ---------------------------------------------------------------------
-- C2: update-target resolution order
-- ---------------------------------------------------------------------

/-- A row slot that pandas `notna` rejects: column absent or cell NA. -/
def isNA (x : Option Cell) : Prop := x = none ∨ x = some none

theorem gsi_of_missing (row : Row) (df : Option (List IdRec))
    (h1 : isNA (row ("meta/instanceID".data))) (h2 : isNA (row ("_uuid".data))) :
    get_submission_id row df =
      match row ("_id".data), df with
      | some (some v), some recs =>
        if recs ≠ [] then
          match recs.filter (fun r => r.idv = some v) with
          | [r] => some ( ensure_uuid_prefix (pyStr r.instv))
          | _ => none
        else none
      | _, _ => none := by
  rcases h1 with h1 | h1 <;> rcases h2 with h2 | h2 <;>
    simp [get_submission_id, h1, h2]

/-- C2 (amended): resolution order of `get_submission_id`.  A present
non-NA `meta/instanceID` (or, failing that, `_uuid`) — even a blank or
whitespace-only one — is trimmed, prefix-normalized and returned; only a
missing or NA value falls through.  With both missing/NA, a present
non-NA `_id` that matches exactly one record of the known-records table
resolves to that record's canonical instance ID; any other situation
(no unique match, empty or absent table, all three columns missing/NA)
resolves to `none`, and the function is total (never throws). -/
theorem claim_C2 (row : Row) (df : Option (List IdRec)) :
    (∀ v, row ("meta/instanceID".data) = some (some v) →
      get_submission_id row df = some ( ensure_uuid_prefix (strip v))) ∧
    (isNA (row ("meta/instanceID".data)) →
      ∀ v, row ("_uuid".data) = some (some v) →
      get_submission_id row df = some ( ensure_uuid_prefix (strip v))) ∧
    (isNA (row ("meta/instanceID".data)) → isNA (row ("_uuid".data)) →
      ∀ v recs r, row ("_id".data) = some (some v) → df = some recs →
      recs.filter (fun e => e.idv = some v) = [r] →
      get_submission_id row df = some ( ensure_uuid_prefix (pyStr r.instv))) ∧
    (isNA (row ("meta/instanceID".data)) → isNA (row ("_uuid".data)) →
      ∀ v recs, row ("_id".data) = some (some v) → df = some recs →
      (recs.filter (fun e => e.idv = some v)).length ≠ 1 →
      get_submission_id row df = none) ∧
    (isNA (row ("meta/instanceID".data)) → isNA (row ("_uuid".data)) →
      isNA (row ("_id".data)) →
      get_submission_id row df = none) := by
  refine ⟨?_, ?_, ?_, ?_, ?_⟩
  · intro v hv
    simp [get_submission_id, hv]
  · intro h1 v hv
    rcases h1 with h1 | h1 <;> simp [get_submission_id, h1, hv]
  · intro h1 h2 v recs r hid hdf hfil
    have hne : recs ≠ [] := by
      rintro rfl
      simp at hfil
    rw [gsi_of_missing row df h1 h2, hid, hdf]
    simp [hne, hfil]
  · intro h1 h2 v recs hid hdf hlen
    rw [gsi_of_missing row df h1 h2, hid, hdf]
    by_cases hne : recs = []
    · simp [hne]
    · simp only [hne, ne_eq, not_false_eq_true, if_true]
      rcases hfil : recs.filter (fun e => e.idv = some v) with _ | ⟨a, _ | ⟨b, l⟩⟩
      · rw [hfil]
      · rw [hfil] at hlen
        simp at hlen
      · rw [hfil]
  · intro h1 h2 h3
    rw [gsi_of_missing row df h1 h2]
    rcases h3 with h3 | h3 <;> rw [h3]

/-- C2 witness: a row lacking all three identifying columns resolves to
`none`. -/
theorem claim_C2_witness :
    get_submission_id (fun _ => none) none = none :=
  (claim_C2 (fun _ => none) none).2.2.2.2 (Or.inl rfl) (Or.inl rfl) (Or.inl rfl)

/-- The row of the C2 counterexample: `meta/instanceID` present holding a
single space, `_id` present holding `"5"`. -/
def c2row : Row := fun c =>
  if c = "meta/instanceID".data then some (some " ".data)
  else if c = "_id".data then some (some "5".data)
  else none

/-- The known-records table of the C2 counterexample: exactly one record
with `_id = "5"` and canonical instance ID `"uuid:abc"`. -/
def c2map : List IdRec :=
  [⟨some ("5".data), some ("abc".data), some ("uuid:abc".data)⟩]

/-- C2 counterexample: the claim says a blank `meta/instanceID` falls
through to the `_id` lookup (which here would resolve `"uuid:abc"`), but
the code tests `pd.notna`, so the whitespace-only value is used directly
and the row resolves to the empty string instead. -/
theorem claim_C2_counterexample :
    get_submission_id c2row (some c2map) = some ([] : Str) ∧
    get_submission_id c2row (some c2map) ≠ some ("uuid:abc".data) := by
  decide

-- ---------------------------------------------------------------------
-- C7: flattener column count and system columns
-- ---------------------------------------------------------------------

/-- The survey of the C7 property: one geopoint, one select_multiple, and
one group containing two plain questions. -/
def c7survey : List QNode :=
  [⟨some ("geopoint".data), some ("gps".data), none, none⟩,
   ⟨some ("select_multiple".data), some ("colors".data), some ("clist".data), none⟩,
   ⟨some ("begin_group".data), some ("grp".data), none, none⟩,
   ⟨some ("text".data), some ("q1".data), none, none⟩,
   ⟨some ("integer".data), some ("q2".data), none, none⟩,
   ⟨some ("end_group".data), none, none, none⟩]

/-- The seven expected schema column paths for `c7survey`. -/
def c7paths : List Str :=
  ["gps_latitude".data, "gps_longitude".data, "gps_altitude".data,
   "gps_precision".data, "colors".data, "grp/q1".data, "grp/q2".data]

/-- C7: flattening `c7survey` yields exactly the seven expected columns
(four for the geopoint, one for the select_multiple, one per grouped
question); `build_template_df` appends the three reserved system columns
to the template's column list only, and none of them occurs in the schema
map. -/
theorem claim_C7 :
    (flatten_survey c7survey []).map Prod.fst = c7paths ∧
    (flatten_survey c7survey []).length = 7 ∧
    (build_template_df ⟨some ⟨some c7survey, some []⟩⟩).1 = c7paths ++ sysCols ∧
    ((build_template_df ⟨some ⟨some c7survey, some []⟩⟩).2).map Prod.fst = c7paths ∧
    (∀ c ∈ sysCols,
      c ∉ ((build_template_df ⟨some ⟨some c7survey, some []⟩⟩).2).map Prod.fst) := by
  decide

-- ---------------------------------------------------------------------
-- C9: existing-ID set membership
-- ---------------------------------------------------------------------

theorem mem_foldl_existStep_acc {x : Str} :
    ∀ (recs : List IdRec) (acc : List Str), x ∈ acc → x ∈ recs.foldl existStep acc := by
  intro recs
  induction recs with
  | nil => intro acc h; simpa using h
  | cons r rs ih =>
    intro acc h
    rw [List.foldl_cons]
    apply ih
    unfold existStep
    cases r.instv <;> simp [h]

theorem mem_foldl_existStep_of_rec :
    ∀ (recs : List IdRec) (acc : List Str) (r : IdRec) (v : Str),
      r ∈ recs → r.instv = some v →
      ensure_uuid_prefix (strip v) ∈ recs.foldl existStep acc ∧
        removeUuid (strip v) ∈ recs.foldl existStep acc := by
  intro recs
  induction recs with
  | nil => intro acc r v h _; simp at h
  | cons a as ih =>
    intro acc r v hmem hv
    rcases List.mem_cons.mp hmem with h | h
    · subst h
      rw [List.foldl_cons]
      constructor <;> (apply mem_foldl_existStep_acc; simp [existStep, hv])
    · rw [List.foldl_cons]
      exact ih _ r v h hv

theorem removeUuidAux_noOcc :
    ∀ (n : Nat) (t : Str), t.length ≤ n →
      (∀ i, uuidPfx.isPrefixOf (t.drop i) = false) → removeUuidAux n t = t := by
  intro n
  induction n with
  | zero =>
    intro t ht _
    have : t = [] := List.length_eq_zero.mp (Nat.le_zero.mp ht)
    subst this
    rfl
  | succ n ih =>
    intro t ht hocc
    cases t with
    | nil => rfl
    | cons c cs =>
      have h0 : uuidPfx.isPrefixOf (c :: cs) = false := by simpa using hocc 0
      rw [removeUuidAux]
      simp only [h0, Bool.false_eq_true, if_false]
      congr 1
      apply ih
      · have : cs.length + 1 ≤ n + 1 := by simpa using ht
        omega
      · intro i
        simpa using hocc (i + 1)

theorem removeUuid_uuid_append {t : Str}
    (hocc : ∀ i, uuidPfx.isPrefixOf (t.drop i) = false) :
    removeUuid (uuidPfx ++ t) = t := by
  unfold removeUuid
  have hlen : (uuidPfx ++ t).length = t.length + 4 + 1 := by
    simp [uuidPfx]
  rw [hlen]
  have hc : uuidPfx.isPrefixOf (uuidPfx ++ t) = true := uuid_isPrefixOf_append t
  have hstep : removeUuidAux (t.length + 4 + 1) (uuidPfx ++ t)
      = removeUuidAux (t.length + 4) ((uuidPfx ++ t).drop 5) := by
    show (if uuidPfx.isPrefixOf (uuidPfx ++ t) = true
        then removeUuidAux (t.length + 4) ((uuidPfx ++ t).drop 5)
        else 'u' :: removeUuidAux (t.length + 4) ("uid:".data ++ t))
      = removeUuidAux (t.length + 4) ((uuidPfx ++ t).drop 5)
    rw [if_pos hc]
  rw [hstep]
  have hdrop : (uuidPfx ++ t).drop 5 = t := by
    have h5 : uuidPfx.length = 5 := by decide
    have := List.drop_left uuidPfx t
    rwa [h5] at this
  rw [hdrop]
  exact removeUuidAux_noOcc _ t (by omega) hocc

theorem bes_of_ne (recs : List IdRec) (h : recs ≠ []) :
    build_existing_id_set (some recs) = recs.foldl existStep [] := by
  simp [build_existing_id_set, h]

/-- C9 (amended): for every record of the known-records table with a
non-NA canonical instance ID `v`, the existing-ID set contains both the
prefix-normalized form of `v` and the value obtained by deleting every
occurrence of `"uuid:"` from `v`; whenever the bare token after the
prefix contains no internal `"uuid:"`, the latter is exactly the bare
form, so lookup succeeds in either form. -/
theorem claim_C9 (recs : List IdRec) (r : IdRec) (v : Str)
    (hmem : r ∈ recs) (hv : r.instv = some v) :
    ensure_uuid_prefix (strip v) ∈ build_existing_id_set (some recs) ∧
    removeUuid (strip v) ∈ build_existing_id_set (some recs) ∧
    (∀ t, strip v = uuidPfx ++ t →
      (∀ i, uuidPfx.isPrefixOf (t.drop i) = false) →
      t ∈ build_existing_id_set (some recs)) := by
  have hne : recs ≠ [] := by
    rintro rfl
    simp at hmem
  rw [bes_of_ne recs hne]
  obtain ⟨h1, h2⟩ := mem_foldl_existStep_of_rec recs [] r v hmem hv
  refine ⟨h1, h2, ?_⟩
  intro t hts hocc
  rw [hts, removeUuid_uuid_append hocc] at h2
  exact h2

theorem noOcc_of_bounded {t : Str}
    (h : ∀ i < t.length, uuidPfx.isPrefixOf (t.drop i) = false) :
    ∀ i, uuidPfx.isPrefixOf (t.drop i) = false := by
  intro i
  by_cases hi : i < t.length
  · exact h i hi
  · have hd : t.drop i = [] := List.drop_eq_nil_of_le (le_of_not_lt hi)
    rw [hd]
    decide

/-- The known-records table for the C9 witness. -/
def c9wrec : IdRec := ⟨none, none, some ("uuid:xyz".data)⟩

/-- C9 witness: from canonical ID `"uuid:xyz"` the set contains both
`"uuid:xyz"` and `"xyz"`. -/
theorem claim_C9_witness :
    "uuid:xyz".data ∈ build_existing_id_set (some [c9wrec]) ∧
    "xyz".data ∈ build_existing_id_set (some [c9wrec]) := by
  have h := claim_C9 [c9wrec] c9wrec ("uuid:xyz".data) (by simp) rfl
  constructor
  · have e1 : ensure_uuid_prefix (strip ("uuid:xyz".data)) = "uuid:xyz".data := by decide
    exact e1 ▸ h.1
  · exact h.2.2 ("xyz".data) (by decide) (noOcc_of_bounded (by decide))

/-- C9 counterexample: for the canonical ID `"uuid:uuid:x"` (bare token
`"uuid:x"`), the set contains the prefixed form but not the bare form —
`replace("uuid:", "")` deletes every occurrence and stores `"x"`. -/
theorem claim_C9_counterexample :
    "uuid:uuid:x".data ∈
      build_existing_id_set (some [⟨none, none, some ("uuid:uuid:x".data)⟩]) ∧
    "uuid:x".data ∉
      build_existing_id_set (some [⟨none, none, some ("uuid:uuid:x".data)⟩]) := by
  decide

-- ---------------------------------------------------------------------
-- C10: flattener totality and tolerance
-- ---------------------------------------------------------------------

/-- C10: the schema flattener is total and tolerant — it is a total
function by construction (never raises); a close marker with an empty
group stack is a no-op; leaf nodes with a missing name, an empty name or
a name beginning with an underscore are skipped; empty or missing survey
data yields an empty column list and an empty schema map (the template
then carries only the reserved system columns). -/
theorem claim_C10 :
    (∀ choices, flatten_survey [] choices = []) ∧
    (∀ (q : QNode) (rest : List QNode),
      q.type.getD [] ∈ groupMarkers →
      "begin".data.isPrefixOf (q.type.getD []) = false →
      flattenAux [] (q :: rest) = flattenAux [] rest) ∧
    (∀ (stack : List Str) (q : QNode) (rest : List QNode),
      q.type.getD [] ∉ groupMarkers → q.name = none →
      flattenAux stack (q :: rest) = flattenAux stack rest) ∧
    (∀ (stack : List Str) (q : QNode) (rest : List QNode) (n : Str),
      q.type.getD [] ∉ groupMarkers → q.name = some n →
      (n = [] ∨ "_".data.isPrefixOf n = true) →
      flattenAux stack (q :: rest) = flattenAux stack rest) ∧
    build_template_df ⟨none⟩ = (sysCols, []) := by
  refine ⟨?_, ?_, ?_, ?_, ?_⟩
  · intro choices
    rfl
  · intro q rest h1 h2
    simp [flattenAux, h1, h2]
  · intro stack q rest h1 h2
    simp [flattenAux, h1, h2]
  · intro stack q rest n h1 h2 h3
    rcases h3 with h3 | h3 <;> simp [flattenAux, h1, h2, h3]
  · decide

/-- C10 witness: a lone `end_group` marker against an empty stack is
skipped without effect. -/
theorem claim_C10_witness :
    flattenAux [] [⟨some ("end_group".data), none, none, none⟩] = flattenAux [] [] :=
  claim_C10.2.1 ⟨some ("end_group".data), none, none, none⟩ [] (by decide) (by decide)

-- ---------------------------------------------------------------------
-- Splitting primitives (Python str.split)
-- ---------------------------------------------------------------------

/-- Split a string at every character satisfying `p`, keeping empty
pieces — the semantics of Python `str.split(sep)` for a one-character
separator, and the common core of `str.split()` once empty pieces are
filtered away. -/
def pieces (p : Char → Bool) : Str → List Str
  | [] => [[]]
  | c :: cs =>
    let r := pieces p cs
    if p c then [] :: r else (c :: r.headD []) :: r.tail

/-- Python `str.split()` (no argument): split on whitespace runs,
dropping empty tokens. -/
def pySplit (s : Str) : List Str := (pieces pyws s).filter (fun t => t ≠ [])

/-- Python `s.replace(",", " ")` — a single-character replacement is a
character map. -/
def replaceCommaSpace (s : Str) : Str := s.map (fun c => if c = ',' then ' ' else c)

/-- `" ".join` of tokens. -/
def joinSpace : List Str → Str
  | [] => []
  | [x] => x
  | x :: y :: t => x ++ ' ' :: joinSpace (y :: t)

/-- Python `path.split("/")`. -/
def splitSlash (s : Str) : List Str := pieces (fun c => c = '/') s

-- ---------------------------------------------------------------------
-- XML element model (xml.etree.ElementTree)
-- ---------------------------------------------------------------------

/-- An ElementTree element: tag, attributes, text, children. -/
inductive Element where
  | mk : Str → List (Str × Str) → Option Str → List Element → Element

instance : Inhabited Element := ⟨Element.mk [] [] none []⟩

def Element.tag : Element → Str
  | .mk t _ _ _ => t

def Element.attrib : Element → List (Str × Str)
  | .mk _ a _ _ => a

def Element.text : Element → Option Str
  | .mk _ _ x _ => x

def Element.children : Element → List Element
  | .mk _ _ _ c => c

def Element.withChildren : Element → List Element → Element
  | .mk t a x _, c => .mk t a x c

def Element.withText : Element → Option Str → Element
  | .mk t a _ c, x => .mk t a x c

/-- `ET.SubElement(e, ...)`: append a child (children lists only ever
grow at the end). -/
def Element.appendChild (e : Element) (c : Element) : Element :=
  e.withChildren (e.children ++ [c])

/-- The children of `e` whose tag is `t` (`e.findall(t)` on one level). -/
def filterTag (cs : List Element) (t : Str) : List Element :=
  cs.filter (fun c => c.tag = t)

/-- Replace the first child whose tag is `p` by `g` applied to it; if no
child has that tag, append `g` applied to a fresh empty element — this is
`node.find(p) or ET.SubElement(node, p)` followed by in-place mutation of
the result. -/
def updChildren (p : Str) (g : Element → Element) : List Element → List Element
  | [] => [g (Element.mk p [] none [])]
  | c :: cs => if c.tag = p then g c :: cs else c :: updChildren p g cs

/-- `data_utils.ensure_nested` in continuation style: walk `path`,
reusing the first child with the wanted tag and creating it (appended at
the end) when absent, then apply `f` to the element the walk ends at. -/
def atPath : List Str → (Element → Element) → Element → Element
  | [], f => f
  | p :: rest, f => fun e =>
      e.withChildren (updChildren p (atPath rest f) e.children)

/-- Mutate (in functional style) the first child with tag `t`, leaving
everything else unchanged; no-op when no child has the tag. -/
def replaceFirstTag (t : Str) (g : Element → Element) : List Element → List Element
  | [] => []
  | c :: cs => if c.tag = t then g c :: cs else c :: replaceFirstTag t g cs

-- ---------------------------------------------------------------------
-- row_to_xml
-- ---------------------------------------------------------------------

/-- The per-path value computation of `data_utils.row_to_xml`
(lines 142-168): geopoint composition, select_multiple token join, or the
plain trimmed value.  `row.get(col, default)` wrapped in `str()` is
`getStr` (an absent column gives the default, a present NA cell gives
`"nan"`); `path in row and isinstance(row[path], str)` is the pattern
`some (some s)`; `path in row and pd.notna(row[path])` likewise. -/
def field_value (row : Row) (path : Str) (q : QNode) : Option Str :=
  if q.type = some ("geopoint".data) then
    let lat := strip (getStr row (path ++ "_latitude".data) [])
    let lon := strip (getStr row (path ++ "_longitude".data) [])
    if lat ≠ [] ∧ lon ≠ [] then
      let alt := strip (getStr row (path ++ "_altitude".data) ("0".data))
      let acc := strip (getStr row (path ++ "_precision".data) ("0.0".data))
      some (lat ++ ' ' :: (lon ++ ' ' :: (alt ++ ' ' :: acc)))
    else none
  else if q.type = some ("select_multiple".data) then
    match row path with
    | some (some s) =>
      let tokens := ((pySplit (replaceCommaSpace s)).filter (fun t => strip t ≠ [])).map strip
      if tokens ≠ [] then some (joinSpace tokens) else none
    | _ => none
  else
    match row path with
    | some (some s) =>
      let v := strip s
      if v ≠ [] then some v else none
    | _ => none

/-- Lines 170-174 of `row_to_xml`: split the path, ensure the
intermediate segments exist, and append a fresh leaf holding the value. -/
def addLeafAt (path : Str) (v : Str) (r : Element) : Element :=
  let parts := splitSlash path
  atPath parts.dropLast
    (fun parent => parent.appendChild (Element.mk (parts.getLastD []) [] (some v) [])) r

/-- One iteration of the `for path, q_info in schema_map.items()` loop. -/
def rowStep (row : Row) (r : Element) (pq : Str × QNode) : Element :=
  match field_value row pq.1 pq.2 with
  | some v => addLeafAt pq.1 v r
  | none => r

/-- `meta.find("instanceID") or ET.SubElement(meta, "instanceID")`
followed by `instance_id.text = f"uuid:{uuid.uuid4()}"`.  An ElementTree
element is falsy exactly when it has no children, so a found-but-childless
`instanceID` is treated as absent and a second one is appended. -/
def instStep (fresh : Str) (m : Element) : Element :=
  match m.children.find? (fun c => c.tag = "instanceID".data) with
  | some i =>
    if i.children.isEmpty then
      m.appendChild (Element.mk ("instanceID".data) [] (some (uuidPfx ++ fresh)) [])
    else
      m.withChildren (replaceFirstTag ("instanceID".data)
        (fun c => c.withText (some (uuidPfx ++ fresh))) m.children)
  | none => m.appendChild (Element.mk ("instanceID".data) [] (some (uuidPfx ++ fresh)) [])

/-- Lines 181-183: `if deprecated_id:` — appends a `deprecatedID` leaf
only for a non-None, non-empty argument. -/
def depStep (dep : Option Str) (m : Element) : Element :=
  match dep with
  | some d =>
    if d ≠ [] then
      m.appendChild (Element.mk ("deprecatedID".data) [] (some ( ensure_uuid_prefix d)) [])
    else m
  | none => m

/-- Everything `row_to_xml` does inside the `meta` element. -/
def metaInner (fresh : Str) (dep : Option Str) (m : Element) : Element :=
  depStep dep (instStep fresh m)

/-- Lines 176-183: `meta = root.find("meta") or ET.SubElement(root,
"meta")` with ElementTree truthiness (childless elements are falsy),
then the instanceID/deprecatedID handling inside it. -/
def metaStep (r : Element) (fresh : Str) (dep : Option Str) : Element :=
  match r.children.find? (fun c => c.tag = "meta".data) with
  | some m =>
    if m.children.isEmpty then
      r.appendChild (metaInner fresh dep (Element.mk ("meta".data) [] none []))
    else
      r.withChildren (replaceFirstTag ("meta".data) (metaInner fresh dep) r.children)
  | none => r.appendChild (metaInner fresh dep (Element.mk ("meta".data) [] none []))

/-- `data_utils.row_to_xml`.  The freshly generated `uuid.uuid4()` is
modelled as the parameter `fresh` (the instanceID text becomes
`"uuid:" ++ fresh`); the function returns the element tree, serialization
to bytes being outside the claims' scope. -/
def row_to_xml (row : Row) (form_id : Str) (schema_map : List (Str × QNode))
    (fresh : Str) (deprecated_id : Option Str) : Element :=
  let root := Element.mk form_id [("id".data, form_id)] none []
  metaStep (schema_map.foldl (rowStep row) root) fresh deprecated_id

-- ---------------------------------------------------------------------
-- C3: geopoint encoding on the failing input (code bug)
-- ---------------------------------------------------------------------

/-- A geopoint question named `loc`. -/
def c3q : QNode := ⟨some ("geopoint".data), some ("loc".data), none, none⟩

/-- The C3 failing row: the four geopoint columns are present (as they
are in any uploaded frame); latitude, altitude and precision hold blank
cells (NA), longitude holds `"2.0"`. -/
def c3row : Row := fun c =>
  if c = "loc_latitude".data then some none
  else if c = "loc_longitude".data then some (some ("2.0".data))
  else if c = "loc_altitude".data then some none
  else if c = "loc_precision".data then some none
  else none

/-- C3 failing-input evaluation: the claim says a blank latitude must
suppress the element and a blank altitude default to `"0"`; the code
stringifies the NA cells to `"nan"` (truthy), so a `loc` element is
emitted with text `"nan 2.0 nan nan"`. -/
theorem claim_C3_failing_eval :
    (filterTag (row_to_xml c3row ("f".data) [("loc".data, c3q)]
        ("F".data) none).children ("loc".data)).map Element.text
      = [some ("nan 2.0 nan nan".data)] := by
  rfl

-- ---------------------------------------------------------------------
-- C4 / C5 counterexamples
-- ---------------------------------------------------------------------

/-- A plain text question whose flattened path is literally
`meta/instanceID`. -/
def c4q : QNode := ⟨some ("text".data), some ("instanceID".data), none, none⟩

/-- The C4 row: the `meta/instanceID` column carries a value. -/
def c4row : Row := fun c =>
  if c = "meta/instanceID".data then some (some ("uuid:old".data)) else none

/-- C4 counterexample: with a valued schema path literally
`meta/instanceID`, the emitted document's (unique) `meta` element carries
TWO `instanceID` children — the row's and a freshly appended one — because
the found `instanceID` element is childless, hence falsy, and is treated
as absent. -/
theorem claim_C4_counterexample :
    (filterTag (row_to_xml c4row ("f".data) [("meta/instanceID".data, c4q)]
        ("F".data) none).children ("meta".data)).map
      (fun m => (filterTag m.children ("instanceID".data)).length) = [2] := by
  rfl

/-- C5 counterexample: supplying `deprecated_id = ""` (a supplied
argument) yields no `deprecatedID` element at all, because the source
guards with Python truthiness (`if deprecated_id:`). -/
theorem claim_C5_counterexample :
    (filterTag (row_to_xml (fun _ => none) ("f".data) [] ("F".data)
        (some [])).children ("meta".data)).map
      (fun m => (filterTag m.children ("deprecatedID".data)).length) = [0] := by
  rfl

-- ---------------------------------------------------------------------
-- C6: select_multiple tokenization
-- ---------------------------------------------------------------------

/-- Separator predicate of the spec's description: comma or whitespace. -/
def commaOrWs (c : Char) : Bool := decide (c = ',') || pyws c

theorem pieces_cons (p : Char → Bool) (c : Char) (cs : Str) :
    pieces p (c :: cs) =
      if p c then [] :: pieces p cs
      else (c :: (pieces p cs).headD []) :: (pieces p cs).tail := rfl

theorem pieces_ne_nil (p : Char → Bool) (l : Str) : pieces p l ≠ [] := by
  cases l with
  | nil => simp [pieces]
  | cons c cs =>
    rw [pieces_cons]
    by_cases h : p c <;> simp [h]

theorem pieces_replace (s : Str) :
    pieces pyws (replaceCommaSpace s) = pieces commaOrWs s := by
  induction s with
  | nil => rfl
  | cons c cs ih =>
    rw [show replaceCommaSpace (c :: cs)
        = (if c = ',' then ' ' else c) :: replaceCommaSpace cs from rfl]
    by_cases hc : c = ','
    · subst hc
      rw [if_pos rfl, pieces_cons, pieces_cons, ih,
        if_pos (show pyws ' ' = true by decide),
        if_pos (show commaOrWs ',' = true by decide)]
    · rw [if_neg hc, pieces_cons, pieces_cons, ih]
      by_cases hw : pyws c
      · have hcw : commaOrWs c = true := by simp [commaOrWs, hw]
        rw [if_pos hw, if_pos hcw]
      · have hcw : commaOrWs c = false := by
          simp [commaOrWs, hc]
          simpa using hw
        rw [if_neg hw, if_neg (by simp [hcw])]

theorem pieces_mem_no_p (p : Char → Bool) :
    ∀ (l : Str) (t : Str), t ∈ pieces p l → ∀ c ∈ t, p c = false := by
  intro l
  induction l with
  | nil =>
    intro t ht c hc
    simp [pieces] at ht
    subst ht
    simp at hc
  | cons a as ih =>
    intro t ht c hc
    rw [pieces_cons] at ht
    by_cases ha : p a
    · rw [if_pos ha] at ht
      rcases List.mem_cons.mp ht with h | h
      · subst h
        simp at hc
      · exact ih t h c hc
    · rw [if_neg ha] at ht
      rcases List.mem_cons.mp ht with h | h
      · subst h
        rcases List.mem_cons.mp hc with h2 | h2
        · subst h2
          simpa using ha
        · rcases hr : pieces p as with _ | ⟨h0, t0⟩
          · exact absurd hr (pieces_ne_nil p as)
          · rw [hr] at h2
            simp at h2
            exact ih h0 (by rw [hr]; exact List.mem_cons_self _ _) c h2
      · rcases hr : pieces p as with _ | ⟨h0, t0⟩
        · exact absurd hr (pieces_ne_nil p as)
        · rw [hr] at h
          simp at h
          exact ih t (by rw [hr]; exact List.mem_cons_of_mem _ h) c hc

theorem dropWhile_all_false {p : Char → Bool} {l : Str}
    (h : ∀ c ∈ l, p c = false) : l.dropWhile p = l := by
  cases l with
  | nil => rfl
  | cons c cs => simp [List.dropWhile_cons, h c (by simp)]

theorem strip_of_no_ws {t : Str} (h : ∀ c ∈ t, pyws c = false) : strip t = t := by
  have hl : lstrip t = t := dropWhile_all_false h
  have hr : rstrip t = t := by
    unfold rstrip
    rw [dropWhile_all_false (fun c hc => h c (by simpa using hc)), List.reverse_reverse]
  unfold strip
  rw [hl, hr]

theorem commaOrWs_false_pyws {c : Char} (h : commaOrWs c = false) : pyws c = false := by
  have := h
  unfold commaOrWs at this
  exact (Bool.or_eq_false_iff.mp this).2

/-- Modelled from the spec: split on both comma and whitespace, trim each
token, drop empty tokens, rejoin the survivors with single spaces;
nothing surviving means no value. -/
def select_multiple_spec (s : Str) : Option Str :=
  let tokens := ((pieces commaOrWs s).map strip).filter (fun t => t ≠ [])
  if tokens ≠ [] then some (joinSpace tokens) else none

theorem sm_tokens_eq (s : Str) :
    ((pySplit (replaceCommaSpace s)).filter (fun t => strip t ≠ [])).map strip
      = ((pieces commaOrWs s).map strip).filter (fun t => t ≠ []) := by
  unfold pySplit
  rw [pieces_replace]
  have hstrip : ∀ t ∈ pieces commaOrWs s, strip t = t := fun t ht =>
    strip_of_no_ws (fun c hc =>
      commaOrWs_false_pyws (pieces_mem_no_p commaOrWs s t ht c hc))
  have hA : ((pieces commaOrWs s).filter (fun t => t ≠ [])).filter
      (fun t => strip t ≠ []) = (pieces commaOrWs s).filter (fun t => t ≠ []) := by
    rw [List.filter_eq_self]
    intro a ha
    have ha1 : a ∈ pieces commaOrWs s := List.mem_of_mem_filter ha
    have ha2 : a ≠ [] := by simpa using List.of_mem_filter ha
    simp [hstrip a ha1, ha2]
  have hB : ((pieces commaOrWs s).filter (fun t => t ≠ [])).map strip
      = (pieces commaOrWs s).filter (fun t => t ≠ []) := by
    have : ∀ a ∈ (pieces commaOrWs s).filter (fun t => t ≠ []), strip a = a :=
      fun a ha => hstrip a (List.mem_of_mem_filter ha)
    rw [List.map_congr_left this, List.map_id']
  have hC : ((pieces commaOrWs s).map strip).filter (fun t => t ≠ [])
      = (pieces commaOrWs s).filter (fun t => t ≠ []) := by
    rw [List.map_congr_left hstrip, List.map_id']
  rw [hA, hB, hC]

/-- C6: on a select_multiple column whose cell is a present string, the
computed value is exactly the spec's pipeline — split on comma and
whitespace, trim, drop empties, rejoin with single spaces (order kept, no
case folding, no dedup) — with no element when nothing survives (in
particular for empty or blank input). -/
theorem claim_C6 (row : Row) (path : Str) (q : QNode) (s : Str)
    (hq : q.type = some ("select_multiple".data)) (hs : row path = some (some s)) :
    field_value row path q = select_multiple_spec s := by
  have hgeo : (q.type = some ("geopoint".data)) = False :=
    eq_false (by rw [hq]; decide)
  have hsel : (q.type = some ("select_multiple".data)) = True := eq_true hq
  simp only [field_value, hgeo, hsel, if_false, if_true, hs]
  rw [sm_tokens_eq]
  rfl

/-- The select_multiple question and row of the C6 witness. -/
def c6q : QNode := ⟨some ("select_multiple".data), some ("q".data), some ("cl".data), none⟩

/-- Row holding the spec's example cell `"a, b,c"`. -/
def c6row : Row := fun c =>
  if c = "q".data then some (some ("a, b,c".data)) else none

/-- C6 witness: the cell `"a, b,c"` encodes to token text `"a b c"`. -/
theorem claim_C6_witness :
    field_value c6row ("q".data) c6q = some ("a b c".data) := by
  have h := claim_C6 c6row ("q".data) c6q ("a, b,c".data) rfl rfl
  rw [h]
  rfl

-- ---------------------------------------------------------------------
-- C8: shared group prefixes produce a single parent element
-- ---------------------------------------------------------------------

/-- Plain question `a` (no special type) of the C8 schema. -/
def c8qa : QNode := ⟨none, some ("a".data), none, none⟩

/-- Plain question `b` (no special type) of the C8 schema. -/
def c8qb : QNode := ⟨none, some ("b".data), none, none⟩

/-- C8: encoding a row against the two leaf paths `g/a` and `g/b`, both
yielding values, produces exactly one `g` element, with the two leaves —
in schema order, holding the trimmed values — as its children: the `g`
segment element is created when `g/a` is processed and reused (not
duplicated) when `g/b` is. -/
theorem claim_C8 (row : Row) (v1 v2 : Str)
    (h1 : row ("g/a".data) = some (some v1)) (h2 : row ("g/b".data) = some (some v2))
    (hv1 : strip v1 ≠ []) (hv2 : strip v2 ≠ []) :
    ∃ G, filterTag (row_to_xml row ("f".data)
        [("g/a".data, c8qa), ("g/b".data, c8qb)] ("F".data) none).children
        ("g".data) = [G] ∧
      G.children = [Element.mk ("a".data) [] (some (strip v1)) [],
        Element.mk ("b".data) [] (some (strip v2)) []] := by
  have hf1 : field_value row ("g/a".data) c8qa = some (strip v1) := by
    simp [field_value, c8qa, h1, hv1]
  have hf2 : field_value row ("g/b".data) c8qb = some (strip v2) := by
    simp [field_value, c8qb, h2, hv2]
  have hdoc : row_to_xml row ("f".data)
      [("g/a".data, c8qa), ("g/b".data, c8qb)] ("F".data) none
      = metaStep (addLeafAt ("g/b".data) (strip v2) (addLeafAt ("g/a".data) (strip v1)
          (Element.mk ("f".data) [("id".data, "f".data)] none []))) ("F".data) none := by
    simp only [row_to_xml, List.foldl_cons, List.foldl_nil, rowStep, hf1, hf2]
  rw [hdoc]
  exact ⟨_, rfl, rfl⟩

/-- The concrete row of the C8 witness. -/
def c8row : Row := fun c =>
  if c = "g/a".data then some (some ("1".data))
  else if c = "g/b".data then some (some ("2".data))
  else none

/-- C8 witness: the sharing property at the concrete row `{g/a: "1",
g/b: "2"}`. -/
theorem claim_C8_witness :
    ∃ G, filterTag (row_to_xml c8row ("f".data)
        [("g/a".data, c8qa), ("g/b".data, c8qb)] ("F".data) none).children
        ("g".data) = [G] ∧
      G.children = [Element.mk ("a".data) [] (some (strip ("1".data))) [],
        Element.mk ("b".data) [] (some (strip ("2".data))) []] :=
  claim_C8 c8row ("1".data) ("2".data) rfl rfl (by decide) (by decide)

-- ---------------------------------------------------------------------
-- Element-level lemmas
-- ---------------------------------------------------------------------

theorem Element.withChildren_tag (e : Element) (cs : List Element) :
    (e.withChildren cs).tag = e.tag := by
  cases e
  rfl

theorem Element.withChildren_children (e : Element) (cs : List Element) :
    (e.withChildren cs).children = cs := by
  cases e
  rfl

theorem Element.appendChild_tag (e c : Element) : (e.appendChild c).tag = e.tag :=
  Element.withChildren_tag _ _

theorem Element.appendChild_children (e c : Element) :
    (e.appendChild c).children = e.children ++ [c] :=
  Element.withChildren_children _ _

theorem Element.withText_tag (e : Element) (x : Option Str) :
    (e.withText x).tag = e.tag := by
  cases e
  rfl

theorem Element.withText_text (e : Element) (x : Option Str) :
    (e.withText x).text = x := by
  cases e
  rfl

/-- `g` preserves the tag of its argument. -/
def tagpres (g : Element → Element) : Prop := ∀ e, (g e).tag = e.tag

theorem updChildren_ne_nil (p : Str) (g : Element → Element) (cs : List Element) :
    updChildren p g cs ≠ [] := by
  cases cs with
  | nil => simp [updChildren]
  | cons c cs => by_cases h : c.tag = p <;> simp [updChildren, h]

theorem filterTag_nil (t : Str) : filterTag [] t = [] := rfl

theorem filterTag_cons_of_eq {c : Element} {t : Str} (h : c.tag = t)
    (cs : List Element) : filterTag (c :: cs) t = c :: filterTag cs t := by
  simp [filterTag, List.filter_cons, h]

theorem filterTag_cons_of_ne {c : Element} {t : Str} (h : ¬ c.tag = t)
    (cs : List Element) : filterTag (c :: cs) t = filterTag cs t := by
  simp [filterTag, List.filter_cons, h]

theorem filterTag_append (cs ds : List Element) (t : Str) :
    filterTag (cs ++ ds) t = filterTag cs t ++ filterTag ds t := by
  simp [filterTag, List.filter_append]

theorem filterTag_updChildren_ne {p t : Str} {g : Element → Element}
    (hg : tagpres g) (hpt : ¬ p = t) :
    ∀ cs, filterTag (updChildren p g cs) t = filterTag cs t := by
  intro cs
  induction cs with
  | nil =>
    have htag : (g (Element.mk p [] none [])).tag = p := hg _
    rw [show updChildren p g [] = [g (Element.mk p [] none [])] from rfl,
      filterTag_cons_of_ne (by rw [htag]; exact hpt), filterTag_nil]
  | cons c cs ih =>
    by_cases hc : c.tag = p
    · rw [show updChildren p g (c :: cs) = g c :: cs from by simp [updChildren, hc]]
      have htag : (g c).tag = p := by rw [hg c, hc]
      rw [filterTag_cons_of_ne (by rw [htag]; exact hpt),
        filterTag_cons_of_ne (by rw [hc]; exact hpt)]
    · rw [show updChildren p g (c :: cs) = c :: updChildren p g cs from by
        simp [updChildren, hc]]
      by_cases hct : c.tag = t
      · rw [filterTag_cons_of_eq hct, filterTag_cons_of_eq hct, ih]
      · rw [filterTag_cons_of_ne hct, filterTag_cons_of_ne hct, ih]

theorem filterTag_updChildren_eq {p : Str} {g : Element → Element} (hg : tagpres g) :
    ∀ cs, filterTag (updChildren p g cs) p =
      match filterTag cs p with
      | [] => [g (Element.mk p [] none [])]
      | x :: xs => g x :: xs := by
  intro cs
  induction cs with
  | nil =>
    have htag : (g (Element.mk p [] none [])).tag = p := hg _
    rw [show updChildren p g [] = [g (Element.mk p [] none [])] from rfl,
      filterTag_cons_of_eq htag, filterTag_nil]
  | cons c cs ih =>
    by_cases hc : c.tag = p
    · rw [show updChildren p g (c :: cs) = g c :: cs from by simp [updChildren, hc]]
      have htag : (g c).tag = p := by rw [hg c, hc]
      rw [filterTag_cons_of_eq htag, filterTag_cons_of_eq hc]
    · rw [show updChildren p g (c :: cs) = c :: updChildren p g cs from by
        simp [updChildren, hc],
        filterTag_cons_of_ne hc, filterTag_cons_of_ne hc, ih]

theorem filterTag_replaceFirstTag_ne {t t' : Str} {g : Element → Element}
    (hg : tagpres g) (htt : ¬ t = t') :
    ∀ cs, filterTag (replaceFirstTag t g cs) t' = filterTag cs t' := by
  intro cs
  induction cs with
  | nil => rfl
  | cons c cs ih =>
    by_cases hc : c.tag = t
    · rw [show replaceFirstTag t g (c :: cs) = g c :: cs from by
        simp [replaceFirstTag, hc]]
      have htag : (g c).tag = t := by rw [hg c, hc]
      rw [filterTag_cons_of_ne (by rw [htag]; exact htt),
        filterTag_cons_of_ne (by rw [hc]; exact htt)]
    · rw [show replaceFirstTag t g (c :: cs) = c :: replaceFirstTag t g cs from by
        simp [replaceFirstTag, hc]]
      by_cases hct : c.tag = t'
      · rw [filterTag_cons_of_eq hct, filterTag_cons_of_eq hct, ih]
      · rw [filterTag_cons_of_ne hct, filterTag_cons_of_ne hct, ih]

theorem filterTag_replaceFirstTag_eq {t : Str} {g : Element → Element}
    (hg : tagpres g) :
    ∀ cs, filterTag (replaceFirstTag t g cs) t =
      match filterTag cs t with
      | [] => []
      | x :: xs => g x :: xs := by
  intro cs
  induction cs with
  | nil => rfl
  | cons c cs ih =>
    by_cases hc : c.tag = t
    · rw [show replaceFirstTag t g (c :: cs) = g c :: cs from by
        simp [replaceFirstTag, hc]]
      have htag : (g c).tag = t := by rw [hg c, hc]
      rw [filterTag_cons_of_eq htag, filterTag_cons_of_eq hc]
    · rw [show replaceFirstTag t g (c :: cs) = c :: replaceFirstTag t g cs from by
        simp [replaceFirstTag, hc],
        filterTag_cons_of_ne hc, filterTag_cons_of_ne hc, ih]

theorem find?_eq_head_filterTag (t : Str) :
    ∀ cs : List Element, cs.find? (fun c => c.tag = t) = (filterTag cs t).head? := by
  intro cs
  induction cs with
  | nil => rfl
  | cons c cs ih =>
    by_cases hc : c.tag = t
    · rw [List.find?_cons_of_pos _ (by simp [hc]), filterTag_cons_of_eq hc]
      rfl
    · rw [List.find?_cons_of_neg _ (by simp [hc]), filterTag_cons_of_ne hc, ih]

-- ---------------------------------------------------------------------
-- addLeafAt in terms of the split path
-- ---------------------------------------------------------------------

/-- The effect of lines 170-174 as a recursion over the split path. -/
def addLeafParts (v : Str) : List Str → Element → Element
  | [], r => r
  | [x], r => r.appendChild (Element.mk x [] (some v) [])
  | p :: q :: t, r =>
      r.withChildren (updChildren p (addLeafParts v (q :: t)) r.children)

theorem getLastD_irrel : ∀ (l : List Str), l ≠ [] → ∀ d1 d2 : Str,
    l.getLastD d1 = l.getLastD d2 := by
  intro l
  induction l with
  | nil => intro h; exact absurd rfl h
  | cons x rest ih =>
    intro _ d1 d2
    cases rest with
    | nil => rfl
    | cons y t => exact ih (by simp) x x

theorem addLeaf_parts_eq (v : Str) : ∀ (parts : List Str), parts ≠ [] → ∀ r,
    atPath parts.dropLast
      (fun parent => parent.appendChild (Element.mk (parts.getLastD []) [] (some v) [])) r
      = addLeafParts v parts r := by
  intro parts
  induction parts with
  | nil => intro h; exact absurd rfl h
  | cons p rest ih =>
    intro _ r
    cases rest with
    | nil => rfl
    | cons q t =>
      have hG : atPath (q :: t).dropLast (fun parent => parent.appendChild
          (Element.mk ((p :: q :: t).getLastD []) [] (some v) []))
          = addLeafParts v (q :: t) := by
        funext e
        have hlast : (p :: q :: t).getLastD [] = (q :: t).getLastD [] := by
          show (q :: t).getLastD p = (q :: t).getLastD []
          exact getLastD_irrel (q :: t) (by simp) p []
        rw [hlast]
        exact ih (by simp) e
      show r.withChildren (updChildren p (atPath (q :: t).dropLast
          (fun parent => parent.appendChild
            (Element.mk ((p :: q :: t).getLastD []) [] (some v) []))) r.children)
        = r.withChildren (updChildren p (addLeafParts v (q :: t)) r.children)
      rw [hG]

theorem addLeafAt_eq_parts (path v : Str) (r : Element) :
    addLeafAt path v r = addLeafParts v (splitSlash path) r := by
  unfold addLeafAt
  exact addLeaf_parts_eq v (splitSlash path) (pieces_ne_nil _ _) r

theorem pieces_join (l : Str) :
    joinSlash (pieces (fun c => decide (c = '/')) l) = l := by
  induction l with
  | nil => rfl
  | cons c cs ih =>
    rw [pieces_cons]
    rcases hr : pieces (fun c => decide (c = '/')) cs with _ | ⟨h, t⟩
    · exact absurd hr (pieces_ne_nil _ _)
    · rw [hr] at ih
      by_cases hc : c = '/'
      · subst hc
        rw [if_pos (by decide),
          show joinSlash ([] :: h :: t) = '/' :: joinSlash (h :: t) from rfl, ih]
      · rw [if_neg (by simp [hc])]
        cases t with
        | nil =>
          show c :: h = c :: cs
          rw [show h = cs from ih]
        | cons y t2 =>
          rw [show joinSlash ((c :: (h :: y :: t2).headD []) :: (h :: y :: t2).tail)
              = c :: joinSlash (h :: y :: t2) from rfl, ih]

theorem splitSlash_inv {path : Str} {parts : List Str}
    (h : splitSlash path = parts) : path = joinSlash parts := by
  rw [← pieces_join path]
  unfold splitSlash at h
  rw [h]

-- ---------------------------------------------------------------------
-- Document invariant carried through the schema fold
-- ---------------------------------------------------------------------

/-- Inside a `meta` element: at most one `instanceID` child, and if one
exists it has children of its own (only path intermediates create one
when the literal leaf paths are excluded). -/
def InvInst (m : Element) : Prop :=
  filterTag m.children ("instanceID".data) = [] ∨
    ∃ i, filterTag m.children ("instanceID".data) = [i] ∧ i.children ≠ []

/-- At document root: at most one `meta` child; if one exists it is
nonempty (hence truthy for ElementTree) and satisfies `InvInst`. -/
def InvDoc (r : Element) : Prop :=
  filterTag r.children ("meta".data) = [] ∨
    ∃ m, filterTag r.children ("meta".data) = [m] ∧ m.children ≠ [] ∧ InvInst m

theorem addLeafParts_tagpres (v : Str) : ∀ parts, tagpres (addLeafParts v parts) := by
  intro parts e
  cases parts with
  | nil => rfl
  | cons p rest =>
    cases rest with
    | nil => exact Element.appendChild_tag _ _
    | cons q t => exact Element.withChildren_tag _ _

theorem addLeafParts_children_ne_nil (v : Str) :
    ∀ parts e, parts ≠ [] → (addLeafParts v parts e).children ≠ [] := by
  intro parts e h
  cases parts with
  | nil => exact absurd rfl h
  | cons p rest =>
    cases rest with
    | nil =>
      rw [show addLeafParts v [p] e
          = e.appendChild (Element.mk p [] (some v) []) from rfl,
        Element.appendChild_children]
      simp
    | cons q t =>
      rw [show addLeafParts v (p :: q :: t) e
          = e.withChildren (updChildren p (addLeafParts v (q :: t)) e.children) from rfl,
        Element.withChildren_children]
      exact updChildren_ne_nil _ _ _

theorem InvInst_addLeafParts (v : Str) :
    ∀ (rest : List Str) (m : Element), rest ≠ [] → rest ≠ ["instanceID".data] →
      InvInst m →
      InvInst (addLeafParts v rest m) ∧ (addLeafParts v rest m).children ≠ [] := by
  intro rest m hne hni hm
  refine ⟨?_, addLeafParts_children_ne_nil v rest m hne⟩
  cases rest with
  | nil => exact absurd rfl hne
  | cons x rest2 =>
    cases rest2 with
    | nil =>
      have hx : ¬ x = "instanceID".data := by
        intro h
        subst h
        exact hni rfl
      rw [show addLeafParts v [x] m
          = m.appendChild (Element.mk x [] (some v) []) from rfl]
      unfold InvInst
      rw [Element.appendChild_children, filterTag_append,
        filterTag_cons_of_ne
          (show ¬ (Element.mk x [] (some v) []).tag = "instanceID".data from hx),
        filterTag_nil, List.append_nil]
      exact hm
    | cons y t =>
      rw [show addLeafParts v (x :: y :: t) m
          = m.withChildren (updChildren x (addLeafParts v (y :: t)) m.children) from rfl]
      unfold InvInst
      rw [Element.withChildren_children]
      by_cases hx : x = "instanceID".data
      · subst hx
        rw [filterTag_updChildren_eq (addLeafParts_tagpres v (y :: t))]
        rcases hm with hm | ⟨i, hi, hic⟩
        · rw [hm]
          right
          exact ⟨_, rfl, addLeafParts_children_ne_nil v (y :: t) _ (by simp)⟩
        · rw [hi]
          right
          exact ⟨_, rfl, addLeafParts_children_ne_nil v (y :: t) i (by simp)⟩
      · rw [filterTag_updChildren_ne (addLeafParts_tagpres v (y :: t)) hx]
        exact hm

theorem InvDoc_addLeafAt (path v : Str) (r : Element) (hInv : InvDoc r)
    (h1 : path ≠ "meta".data) (h2 : path ≠ "meta/instanceID".data) :
    InvDoc (addLeafAt path v r) := by
  rw [addLeafAt_eq_parts]
  rcases hparts : splitSlash path with _ | ⟨p, rest⟩
  · exact absurd hparts (pieces_ne_nil _ _)
  · cases rest with
    | nil =>
      have hp : ¬ p = "meta".data := by
        intro h
        subst h
        exact h1 (by rw [splitSlash_inv hparts]; decide)
      rw [show addLeafParts v [p] r
          = r.appendChild (Element.mk p [] (some v) []) from rfl]
      unfold InvDoc
      rw [Element.appendChild_children, filterTag_append,
        filterTag_cons_of_ne
          (show ¬ (Element.mk p [] (some v) []).tag = "meta".data from hp),
        filterTag_nil, List.append_nil]
      exact hInv
    | cons q t =>
      rw [show addLeafParts v (p :: q :: t) r
          = r.withChildren (updChildren p (addLeafParts v (q :: t)) r.children) from rfl]
      unfold InvDoc
      rw [Element.withChildren_children]
      by_cases hp : p = "meta".data
      · subst hp
        have hrest : (q :: t) ≠ ["instanceID".data] := by
          intro h
          rw [h] at hparts
          exact h2 (by rw [splitSlash_inv hparts]; decide)
        rw [filterTag_updChildren_eq (addLeafParts_tagpres v (q :: t))]
        rcases hInv with hm | ⟨m, hm, hmc, hmi⟩
        · rw [hm]
          right
          have h3 := InvInst_addLeafParts v (q :: t)
            (Element.mk ("meta".data) [] none []) (by simp) hrest (Or.inl rfl)
          exact ⟨_, rfl, h3.2, h3.1⟩
        · rw [hm]
          right
          have h3 := InvInst_addLeafParts v (q :: t) m (by simp) hrest hmi
          exact ⟨_, rfl, h3.2, h3.1⟩
      · rw [filterTag_updChildren_ne (addLeafParts_tagpres v (q :: t)) hp]
        exact hInv

theorem InvDoc_fold (row : Row) :
    ∀ (sm : List (Str × QNode)) (r : Element),
      (∀ pq ∈ sm, pq.1 ≠ "meta".data ∧ pq.1 ≠ "meta/instanceID".data) →
      InvDoc r → InvDoc (sm.foldl (rowStep row) r) := by
  intro sm
  induction sm with
  | nil =>
    intro r _ h
    simpa using h
  | cons a as ih =>
    intro r hp hInv
    rw [List.foldl_cons]
    apply ih
    · intro pq hpq
      exact hp pq (List.mem_cons_of_mem _ hpq)
    · unfold rowStep
      rcases hfv : field_value row a.1 a.2 with _ | v
      · exact hInv
      · exact InvDoc_addLeafAt a.1 v r hInv (hp a (List.mem_cons_self _ _)).1
          (hp a (List.mem_cons_self _ _)).2

-- ---------------------------------------------------------------------
-- metaStep resolution
-- ---------------------------------------------------------------------

theorem isEmpty_false_of_ne_nil {α : Type} {l : List α} (h : l ≠ []) :
    l.isEmpty = false := by
  cases l with
  | nil => exact absurd rfl h
  | cons a b => rfl

theorem instStep_eq_append (fresh : Str) (m : Element)
    (h : filterTag m.children ("instanceID".data) = []) :
    instStep fresh m = m.appendChild
      (Element.mk ("instanceID".data) [] (some (uuidPfx ++ fresh)) []) := by
  unfold instStep
  rw [find?_eq_head_filterTag, h]
  rfl

theorem instStep_eq_append2 (fresh : Str) (m i : Element)
    (h : (filterTag m.children ("instanceID".data)).head? = some i)
    (hic : i.children = []) :
    instStep fresh m = m.appendChild
      (Element.mk ("instanceID".data) [] (some (uuidPfx ++ fresh)) []) := by
  unfold instStep
  rw [find?_eq_head_filterTag, h]
  show (if i.children.isEmpty = true
      then m.appendChild (Element.mk ("instanceID".data) [] (some (uuidPfx ++ fresh)) [])
      else m.withChildren (replaceFirstTag ("instanceID".data)
        (fun c => c.withText (some (uuidPfx ++ fresh))) m.children))
    = m.appendChild (Element.mk ("instanceID".data) [] (some (uuidPfx ++ fresh)) [])
  exact if_pos (by rw [hic]; rfl)

theorem instStep_eq_replace (fresh : Str) (m i : Element)
    (h : (filterTag m.children ("instanceID".data)).head? = some i)
    (hic : i.children ≠ []) :
    instStep fresh m = m.withChildren (replaceFirstTag ("instanceID".data)
      (fun c => c.withText (some (uuidPfx ++ fresh))) m.children) := by
  unfold instStep
  rw [find?_eq_head_filterTag, h]
  have hie : i.children.isEmpty = false := isEmpty_false_of_ne_nil hic
  show (if i.children.isEmpty = true
      then m.appendChild (Element.mk ("instanceID".data) [] (some (uuidPfx ++ fresh)) [])
      else m.withChildren (replaceFirstTag ("instanceID".data)
        (fun c => c.withText (some (uuidPfx ++ fresh))) m.children))
    = m.withChildren (replaceFirstTag ("instanceID".data)
      (fun c => c.withText (some (uuidPfx ++ fresh))) m.children)
  exact if_neg (by simp [hie])

theorem metaStep_eq_append (r : Element) (fresh : Str) (dep : Option Str)
    (h : filterTag r.children ("meta".data) = []) :
    metaStep r fresh dep
      = r.appendChild (metaInner fresh dep (Element.mk ("meta".data) [] none [])) := by
  unfold metaStep
  rw [find?_eq_head_filterTag, h]
  rfl

theorem metaStep_eq_replace (r : Element) (fresh : Str) (dep : Option Str)
    (m : Element) (h : filterTag r.children ("meta".data) = [m]) (hmc : m.children ≠ []) :
    metaStep r fresh dep
      = r.withChildren (replaceFirstTag ("meta".data) (metaInner fresh dep) r.children) := by
  unfold metaStep
  rw [find?_eq_head_filterTag, h]
  have hie : m.children.isEmpty = false := isEmpty_false_of_ne_nil hmc
  show (if m.children.isEmpty = true
      then r.appendChild (metaInner fresh dep (Element.mk ("meta".data) [] none []))
      else r.withChildren (replaceFirstTag ("meta".data) (metaInner fresh dep) r.children))
    = r.withChildren (replaceFirstTag ("meta".data) (metaInner fresh dep) r.children)
  exact if_neg (by simp [hie])

theorem instStep_tagpres (fresh : Str) : tagpres (instStep fresh) := by
  intro m
  rcases hf : filterTag m.children ("instanceID".data) with _ | ⟨i, xs⟩
  · rw [instStep_eq_append fresh m hf]
    exact Element.appendChild_tag _ _
  · have hh : (filterTag m.children ("instanceID".data)).head? = some i := by
      rw [hf]
      rfl
    rcases hic : i.children with _ | ⟨a, b⟩
    · rw [instStep_eq_append2 fresh m i hh hic]
      exact Element.appendChild_tag _ _
    · rw [instStep_eq_replace fresh m i hh (by rw [hic]; simp)]
      exact Element.withChildren_tag _ _

theorem depStep_none (m : Element) : depStep none m = m := rfl

theorem depStep_nil (m : Element) : depStep (some []) m = m := by
  unfold depStep
  show (if ([] : Str) ≠ []
      then m.appendChild
        (Element.mk ("deprecatedID".data) [] (some ( ensure_uuid_prefix [])) [])
      else m) = m
  exact if_neg (by simp)

theorem depStep_some {d : Str} (hd : d ≠ []) (m : Element) :
    depStep (some d) m = m.appendChild
      (Element.mk ("deprecatedID".data) [] (some ( ensure_uuid_prefix d)) []) := by
  unfold depStep
  show (if d ≠ []
      then m.appendChild
        (Element.mk ("deprecatedID".data) [] (some ( ensure_uuid_prefix d)) [])
      else m) = _
  exact if_pos hd

theorem depStep_tagpres (dep : Option Str) : tagpres (depStep dep) := by
  intro m
  cases dep with
  | none => rfl
  | some d =>
    by_cases hd : d = []
    · subst hd
      rw [depStep_nil]
    · rw [depStep_some hd]
      exact Element.appendChild_tag _ _

theorem metaInner_tagpres (fresh : Str) (dep : Option Str) :
    tagpres (metaInner fresh dep) := by
  intro m
  unfold metaInner
  exact (depStep_tagpres dep _).trans (instStep_tagpres fresh m)

theorem filterTag_depStep_inst (dep : Option Str) (m : Element) :
    filterTag (depStep dep m).children ("instanceID".data)
      = filterTag m.children ("instanceID".data) := by
  cases dep with
  | none => rfl
  | some d =>
    by_cases hd : d = []
    · subst hd
      rw [depStep_nil]
    · have hdt : ¬ (Element.mk ("deprecatedID".data) []
          (some ( ensure_uuid_prefix d)) []).tag = "instanceID".data := by
        show ¬ ("deprecatedID".data = "instanceID".data)
        decide
      rw [depStep_some hd, Element.appendChild_children, filterTag_append,
        filterTag_cons_of_ne hdt, filterTag_nil, List.append_nil]

theorem metaInner_inst (fresh : Str) (dep : Option Str) (m : Element)
    (hm : InvInst m) :
    ∃ I, filterTag (metaInner fresh dep m).children ("instanceID".data) = [I] ∧
      I.text = some (uuidPfx ++ fresh) := by
  unfold metaInner
  rw [filterTag_depStep_inst]
  rcases hm with hm | ⟨i, hi, hic⟩
  · rw [instStep_eq_append fresh m hm, Element.appendChild_children, filterTag_append,
      hm,
      filterTag_cons_of_eq (show (Element.mk ("instanceID".data) []
        (some (uuidPfx ++ fresh)) []).tag = "instanceID".data from rfl),
      filterTag_nil, List.nil_append]
    exact ⟨Element.mk ("instanceID".data) [] (some (uuidPfx ++ fresh)) [], rfl, rfl⟩
  · rw [instStep_eq_replace fresh m i (by rw [hi]; rfl) hic,
      Element.withChildren_children,
      filterTag_replaceFirstTag_eq (fun e => Element.withText_tag e _), hi]
    exact ⟨i.withText (some (uuidPfx ++ fresh)), rfl, Element.withText_text _ _⟩

theorem metaStep_inst_spec (r : Element) (fresh : Str) (dep : Option Str)
    (hInv : InvDoc r) :
    ∃ M I, filterTag (metaStep r fresh dep).children ("meta".data) = [M] ∧
      filterTag M.children ("instanceID".data) = [I] ∧
      I.text = some (uuidPfx ++ fresh) := by
  rcases hInv with hm | ⟨m, hm, hmc, hmi⟩
  · rw [metaStep_eq_append r fresh dep hm, Element.appendChild_children,
      filterTag_append, hm,
      filterTag_cons_of_eq (show (metaInner fresh dep
        (Element.mk ("meta".data) [] none [])).tag = "meta".data from
        metaInner_tagpres fresh dep _),
      filterTag_nil, List.nil_append]
    obtain ⟨I, hI, hIt⟩ := metaInner_inst fresh dep
      (Element.mk ("meta".data) [] none []) (Or.inl rfl)
    exact ⟨_, I, rfl, hI, hIt⟩
  · rw [metaStep_eq_replace r fresh dep m hm hmc, Element.withChildren_children,
      filterTag_replaceFirstTag_eq (metaInner_tagpres fresh dep), hm]
    obtain ⟨I, hI, hIt⟩ := metaInner_inst fresh dep m hmi
    exact ⟨_, I, rfl, hI, hIt⟩

/-- C4 (amended): for every row, form identifier, fresh identifier,
deprecated-id argument, and schema map in which no column path is
literally `meta` or `meta/instanceID`, the encoded document contains
exactly one `meta` element and exactly one `instanceID` child under it,
whose text is the freshly generated identifier in prefixed form — in
particular a schema path `meta/<something>` reuses the existing `meta`
element rather than duplicating it.  (When a valued leaf path is
literally `meta/instanceID` a second `instanceID` child is appended, and
when one is literally `meta` a second `meta` element is created — see the
counterexample.) -/
theorem claim_C4 (row : Row) (form_id fresh : Str) (dep : Option Str)
    (schema_map : List (Str × QNode))
    (hp : ∀ pq ∈ schema_map, pq.1 ≠ "meta".data ∧ pq.1 ≠ "meta/instanceID".data) :
    ∃ M I, filterTag (row_to_xml row form_id schema_map fresh dep).children
        ("meta".data) = [M] ∧
      filterTag M.children ("instanceID".data) = [I] ∧
      I.text = some (uuidPfx ++ fresh) := by
  unfold row_to_xml
  apply metaStep_inst_spec
  exact InvDoc_fold row schema_map _ hp (Or.inl rfl)

/-- C4 witness: the invariant at an empty schema map. -/
theorem claim_C4_witness :
    ∃ M I, filterTag (row_to_xml (fun _ => none) ("f".data) [] ("F".data)
        none).children ("meta".data) = [M] ∧
      filterTag M.children ("instanceID".data) = [I] ∧
      I.text = some (uuidPfx ++ "F".data) :=
  claim_C4 (fun _ => none) ("f".data) ("F".data) none [] (by simp)

-- ---------------------------------------------------------------------
-- C5: deprecatedID emission
-- ---------------------------------------------------------------------

/-- The deprecatedID children `row_to_xml` is specified to emit: exactly
one, with the supplied identifier normalized to prefixed form, for a
supplied non-empty `deprecated_id`; none otherwise. -/
def depSpec (dep : Option Str) : List Element :=
  match dep with
  | some d =>
    if d = [] then []
    else [Element.mk ("deprecatedID".data) [] (some ( ensure_uuid_prefix d)) []]
  | none => []

theorem filterTag_addLeafAt_meta (path v : Str) (r : Element)
    (h : (splitSlash path).headD [] ≠ "meta".data) :
    filterTag (addLeafAt path v r).children ("meta".data)
      = filterTag r.children ("meta".data) := by
  rw [addLeafAt_eq_parts]
  rcases hparts : splitSlash path with _ | ⟨p, rest⟩
  · exact absurd hparts (pieces_ne_nil _ _)
  · have hp : ¬ p = "meta".data := by
      rw [hparts] at h
      simpa using h
    cases rest with
    | nil =>
      rw [show addLeafParts v [p] r
          = r.appendChild (Element.mk p [] (some v) []) from rfl,
        Element.appendChild_children, filterTag_append,
        filterTag_cons_of_ne
          (show ¬ (Element.mk p [] (some v) []).tag = "meta".data from hp),
        filterTag_nil, List.append_nil]
    | cons q t =>
      rw [show addLeafParts v (p :: q :: t) r
          = r.withChildren (updChildren p (addLeafParts v (q :: t)) r.children) from rfl,
        Element.withChildren_children,
        filterTag_updChildren_ne (addLeafParts_tagpres v (q :: t)) hp]

theorem zeroMeta_fold (row : Row) :
    ∀ (sm : List (Str × QNode)) (r : Element),
      (∀ pq ∈ sm, (splitSlash pq.1).headD [] ≠ "meta".data) →
      filterTag r.children ("meta".data) = [] →
      filterTag ((sm.foldl (rowStep row) r)).children ("meta".data) = [] := by
  intro sm
  induction sm with
  | nil =>
    intro r _ h
    simpa using h
  | cons a as ih =>
    intro r hp hz
    rw [List.foldl_cons]
    apply ih
    · intro pq hpq
      exact hp pq (List.mem_cons_of_mem _ hpq)
    · unfold rowStep
      rcases hfv : field_value row a.1 a.2 with _ | v
      · exact hz
      · rw [filterTag_addLeafAt_meta a.1 v r (hp a (List.mem_cons_self _ _))]
        exact hz

/-- C5 (amended): for schema maps none of whose column paths start with
the segment `meta`, the encoded document's unique `meta` element carries a
`deprecatedID` leaf if and only if the supplied `deprecated_id` is
non-None and non-empty, in which case the leaf is unique with text the
supplied identifier normalized to prefixed form; a `meta/instanceID` leaf
is present alongside; no `deprecatedID` appears for `none` — nor for the
empty string, which Python truthiness treats like `None` (see the
counterexample). -/
theorem claim_C5 (row : Row) (form_id fresh : Str) (dep : Option Str)
    (schema_map : List (Str × QNode))
    (hp : ∀ pq ∈ schema_map, (splitSlash pq.1).headD [] ≠ "meta".data) :
    ∃ M, filterTag (row_to_xml row form_id schema_map fresh dep).children
        ("meta".data) = [M] ∧
      filterTag M.children ("deprecatedID".data) = depSpec dep ∧
      (filterTag M.children ("instanceID".data)).length = 1 := by
  unfold row_to_xml
  have hz : filterTag ((schema_map.foldl (rowStep row)
      (Element.mk form_id [("id".data, form_id)] none []))).children
      ("meta".data) = [] :=
    zeroMeta_fold row schema_map _ hp rfl
  rw [metaStep_eq_append _ fresh dep hz, Element.appendChild_children,
    filterTag_append, hz,
    filterTag_cons_of_eq (show (metaInner fresh dep
      (Element.mk ("meta".data) [] none [])).tag = "meta".data from
      metaInner_tagpres fresh dep _),
    filterTag_nil, List.nil_append]
  refine ⟨_, rfl, ?_, ?_⟩
  · unfold metaInner
    rw [instStep_eq_append fresh (Element.mk ("meta".data) [] none []) rfl]
    cases dep with
    | none => rfl
    | some d =>
      by_cases hd : d = []
      · subst hd
        rw [depStep_nil]
        rfl
      · rw [depStep_some hd, Element.appendChild_children, filterTag_append,
          filterTag_cons_of_eq (show (Element.mk ("deprecatedID".data) []
            (some ( ensure_uuid_prefix d)) []).tag = "deprecatedID".data from rfl),
          filterTag_nil,
          show filterTag ((Element.mk ("meta".data) [] none []).appendChild
            (Element.mk ("instanceID".data) [] (some (uuidPfx ++ fresh)) [])).children
            ("deprecatedID".data) = [] from rfl,
          List.nil_append]
        simp [depSpec, hd]
  · unfold metaInner
    rw [filterTag_depStep_inst, instStep_eq_append fresh (Element.mk ("meta".data) [] none []) rfl]
    rfl

/-- C5 witness: encoding with `deprecated_id = "abc"` yields a unique
`meta/deprecatedID` leaf with text `"uuid:abc"` alongside the
`meta/instanceID` leaf. -/
theorem claim_C5_witness :
    ∃ M, filterTag (row_to_xml (fun _ => none) ("f".data) [] ("F".data)
        (some ("abc".data))).children ("meta".data) = [M] ∧
      filterTag M.children ("deprecatedID".data) =
        [Element.mk ("deprecatedID".data) [] (some ("uuid:abc".data)) []] ∧
      (filterTag M.children ("instanceID".data)).length = 1 := by
  obtain ⟨M, h1, h2, h3⟩ := claim_C5 (fun _ => none) ("f".data) ("F".data)
    (some ("abc".data)) [] (by simp)
  refine ⟨M, h1, ?_, h3⟩
  rw [h2]
  rfl
